import Mathlib

/-!
Verification development for karacopy.py, a script that selects lyrics,
media and cover-art files from a music library organised as
artist/album folders and copies them into a destination tree.

Strings are modelled as lists of characters (`Str`), POSIX path separator.
Python string primitives (str.strip, str.split, os.path.splitext,
os.path.join) are embedded with their exact semantics; the filesystem is
modelled by the output shape of os.walk, namely a list of
(root, dirnames, filenames) entries, plus a tree type for the full walk.
-/

set_option maxRecDepth 10000

abbrev Str := List Char

/-- os.path.sep on POSIX systems. -/
def pathSep : Char := '/'

/-- EXTS_MEDIA from karacopy.py line 39. -/
def EXTS_MEDIA : List Str := [("mp3".toList), ("m4a".toList)]

/-- EXTS_ART from karacopy.py line 40. -/
def EXTS_ART : List Str := [("jpg".toList)]

/-- EXTS_LYRICS from karacopy.py line 41. -/
def EXTS_LYRICS : List Str := [("lrc".toList)]

/-- ALLOWED_EXTS from karacopy.py line 42: EXTS_MEDIA + EXTS_ART + EXTS_LYRICS. -/
def ALLOWED_EXTS : List Str := EXTS_MEDIA ++ EXTS_ART ++ EXTS_LYRICS

/-- Python str.split(sep) for a one-character separator: splits at every
occurrence, keeping empty pieces, and yields one (empty) piece for the
empty string. -/
def pySplit (sep : Char) : Str → List Str
  | [] => [[]]
  | c :: rest =>
    if c = sep then [] :: pySplit sep rest
    else
      match pySplit sep rest with
      | [] => [[c]]
      | s :: ss => (c :: s) :: ss

/-- Python str.strip(chars): removes from both ends every character that is
a member of the character set chars (not a prefix/suffix removal). -/
def pyStrip (chars : Str) (s : Str) : Str :=
  ((s.dropWhile (fun c => chars.contains c)).reverse.dropWhile
    (fun c => chars.contains c)).reverse

/-- Python str.startswith: strStartsWith pfx s is true when s begins with pfx. -/
def strStartsWith : Str → Str → Bool
  | [], _ => true
  | _ :: _, [] => false
  | a :: as, b :: bs => a == b && strStartsWith as bs

/-- posixpath.join for two components: an absolute second component wins;
otherwise a separator is inserted unless the first part is empty or already
ends with one. -/
def pjoin (a b : Str) : Str :=
  if b.head? = some pathSep then b
  else if a = [] ∨ a.getLast? = some pathSep then a ++ b
  else a ++ pathSep :: b

/-- Characters of a path after its last separator (the final name segment). -/
def baseNameOf (p : Str) : Str :=
  (p.reverse.takeWhile (fun c => c != pathSep)).reverse

/-- Characters of a path up to and including its last separator. -/
def dirPartOf (p : Str) : Str :=
  (p.reverse.dropWhile (fun c => c != pathSep)).reverse

/-- Leading dots of a name segment (they never begin an extension). -/
def extLead (b : Str) : Str := b.takeWhile (fun c => c == '.')

/-- The name segment with its leading dots removed. -/
def extRest (b : Str) : Str := b.dropWhile (fun c => c == '.')

/-- The characters after the last dot of extRest (all of it when no dot). -/
def extRsuf (b : Str) : Str := (extRest b).reverse.takeWhile (fun c => c != '.')

/-- Extension split of a final name segment, following posixpath.splitext:
leading dots of the segment never begin an extension; the extension starts
at the last dot of the remaining characters, when there is one. -/
def extSplitBase (b : Str) : Str × Str :=
  if (extRsuf b).length == (extRest b).length then (b, [])
  else (extLead b ++ (extRest b).take ((extRest b).length - (extRsuf b).length - 1),
    '.' :: (extRsuf b).reverse)

/-- os.path.splitext: split the path into (root, ext). -/
def splitext (p : Str) : Str × Str :=
  let pr := extSplitBase (baseNameOf p)
  (dirPartOf p ++ pr.1, pr.2)

/-- get_file_ext from karacopy.py lines 83-85: the splitext extension with
its dots stripped from both ends. -/
def get_file_ext (p : Str) : Str :=
  pyStrip ['.'] (splitext p).2

/-- The basename computed at karacopy.py line 126: os.path.splitext(f)[0]. -/
def stemOf (f : Str) : Str := (splitext f).1

/-- get_path_depth from karacopy.py lines 79-80:
len(path.strip(os.path.sep).split(os.path.sep)). -/
def get_path_depth (p : Str) : Nat :=
  (pySplit pathSep (pyStrip [pathSep] p)).length

/-- Value of a list of decimal digit characters, as int() computes it. -/
def digitsToNat (l : List Char) : Nat :=
  l.foldl (fun a c => a * 10 + (c.toNat - 48)) 0

/-- Models int() on the numeric configuration strings min_year/max_year. -/
def strToNat (s : Str) : Nat := digitsToNat s

/-- The sentinel string compared against at karacopy.py line 117. -/
def anyStr : Str := ("any".toList)

/-- One scan step bounded by fuel; the scan consumes at least one character
per unit of fuel, so fuel s.length is always enough (see findYearTokens). -/
def findYearTokensAux : Nat → Str → List Nat
  | 0, _ => []
  | _ + 1, [] => []
  | fuel + 1, c :: rest =>
    if c = '[' then
      match rest with
      | d1 :: d2 :: d3 :: d4 :: ']' :: rest2 =>
        if d1.isDigit && d2.isDigit && d3.isDigit && d4.isDigit then
          digitsToNat [d1, d2, d3, d4] :: findYearTokensAux fuel rest2
        else findYearTokensAux fuel rest
      | _ => findYearTokensAux fuel rest
    else findYearTokensAux fuel rest

/-- re.findall("\\[(\\d{4})\\]", s): left-to-right non-overlapping scan; a
match is a literal bracket, four digits, a literal closing bracket; on a
match the scan resumes after it, otherwise it advances one character. -/
def findYearTokens (s : Str) : List Nat :=
  findYearTokensAux s.length s

/-- The year extraction at karacopy.py line 111: the last regex match, as an
integer, or failure when there is no match. -/
def albumYearOf (albumName : Str) : Option Nat :=
  (findYearTokens albumName).getLast?

/-- The album name contains a bracketed 4-digit token somewhere. -/
def HasTok (s : Str) : Prop :=
  ∃ u d1 d2 d3 d4 v, s = u ++ '[' :: d1 :: d2 :: d3 :: d4 :: ']' :: v ∧
    (d1.isDigit && d2.isDigit && d3.isDigit && d4.isDigit) = true

/-- The year-range test at karacopy.py lines 117-119:
(min_year == "any" or album_year >= int(min_year)) and
(max_year == "any" or album_year <= int(max_year)). -/
def yearInRange (minY maxY : Str) (y : Nat) : Bool :=
  (minY == anyStr || decide (strToNat minY ≤ y)) &&
    (maxY == anyStr || decide (y ≤ strToNat maxY))

/-- Output shape of os.walk: a list of (root, dirnames, filenames) entries. -/
abbrev Fs := List (Str × List Str × List Str)

/-- os.path.exists at karacopy.py line 129, modelled as: the path names a
file listed by the walk (directories are not modelled as existing paths,
matching the spec's reading of the sibling check). -/
def existsFs (walk : Fs) (p : Str) : Bool :=
  walk.any (fun e => e.2.2.any (fun f => pjoin e.1 f == p))

/-- Per-file selection, karacopy.py lines 122-132: a lyrics file is selected
together with every same-directory same-stem media sibling that exists; an
art file is selected; anything else is ignored. -/
def selectOne (fs : Fs) (root : Str) (f : Str) : List Str :=
  if get_file_ext f ∈ EXTS_LYRICS then
    pjoin root f ::
      EXTS_MEDIA.filterMap (fun e =>
        if existsFs fs (pjoin root (stemOf f ++ '.' :: e)) then
          some (pjoin root (stemOf f ++ '.' :: e))
        else none)
  else if get_file_ext f ∈ EXTS_ART then [pjoin root f]
  else []

/-- The selection loop of process_album_dir, lines 120-132, over the walk of
the album subtree. -/
def selectFiles (walk : Fs) : List Str :=
  walk.flatMap (fun e => e.2.2.flatMap (fun f => selectOne walk e.1 f))

/-- The fatal conditions of the run. -/
inductive RunError where
  /-- IndexError from findall(...)[-1] at line 111: no bracketed year; the
  run prints the album name and the parse failure detail, then exits 1. -/
  | unparsableAlbumYear (albumName : Str) (detail : Str)
  /-- Uncaught IndexError from tokens[-2] at line 107 for a path with fewer
  than two separator-separated tokens. -/
  | pathTooShallow
  /-- Exception raised at karacopy.py line 155 when the source file path
  does not start with the source directory. -/
  | pathNotUnderRoot
  deriving DecidableEq

/-- The IndexError message produced by list indexing in Python. -/
def indexErrMsg : Str := ("list index out of range".toList)

/-- The last separator-separated token of a path (album_name, line 106). -/
def lastSegOf (p : Str) : Str :=
  (pySplit pathSep p).getLast?.getD []

/-- process_album_dir from karacopy.py lines 101-133, over the walk of the
album folder's subtree. sys.exit(1) is modelled as an error result. -/
def process_album_dir (albumPath minY maxY : Str) (walk : Fs) :
    Except RunError (List Str) :=
  if (pySplit pathSep albumPath).length < 2 then .error .pathTooShallow
  else
    match albumYearOf (lastSegOf albumPath) with
    | none => .error (.unparsableAlbumYear (lastSegOf albumPath) indexErrMsg)
    | some y => .ok (if yearInRange minY maxY y then selectFiles walk else [])

/-- The destination computation of copy_file, karacopy.py lines 153-158:
after the prefix check, the relative path is computed with two str.strip
calls (character-set strips) and joined onto the destination directory. -/
def copy_file_dest (source_dir dest_dir source_file_abspath : Str) :
    Except RunError Str :=
  if strStartsWith source_dir source_file_abspath then
    .ok (pjoin dest_dir (pyStrip [pathSep] (pyStrip source_dir source_file_abspath)))
  else .error .pathNotUnderRoot

/-- Modelled from the spec words for DestinationMapping (spec sections 3 and
4.4): destRoot joined with exactly the remainder of the source path after
removing the sourceRoot prefix and any leading path separator. Used to
compare the code's mapping against the specified one. -/
def destPathSpec (sourceRoot destRoot p : Str) : Except RunError Str :=
  if strStartsWith sourceRoot p then
    .ok (pjoin destRoot ((p.drop sourceRoot.length).dropWhile (fun c => c == pathSep)))
  else .error .pathNotUnderRoot

/-- The depth test of walk_media_dir, karacopy.py lines 174-177:
current_depth - base_depth == 2, over Python integers. -/
def albumDirTest (basePath p : Str) : Bool :=
  ((get_path_depth p : Int) - (get_path_depth basePath : Int)) == 2

mutual
/-- A directory of the filesystem: named subdirectories and file names. -/
inductive FsTree : Type where
  | node : FsForest → List Str → FsTree
/-- The ordered list of named subdirectories of a directory. -/
inductive FsForest : Type where
  | fnil : FsForest
  | fcons : Str → FsTree → FsForest → FsForest
end

/-- Subdirectory names of a forest, in listing order. -/
def dirNamesF : FsForest → List Str
  | .fnil => []
  | .fcons n _ rest => n :: dirNamesF rest

/-- The (name, subtree) pairs of a forest. -/
def forestToList : FsForest → List (Str × FsTree)
  | .fnil => []
  | .fcons n t rest => (n, t) :: forestToList rest

mutual
/-- os.walk(p) with topdown=True (the default, used at line 120): the
directory itself first, then each subdirectory's walk in listing order. -/
def walkDown (p : Str) (t : FsTree) : Fs :=
  match t with
  | .node subs files => (p, dirNamesF subs, files) :: walkDownF p subs
def walkDownF (p : Str) (fr : FsForest) : Fs :=
  match fr with
  | .fnil => []
  | .fcons n t rest => walkDown (pjoin p n) t ++ walkDownF p rest
end

mutual
/-- os.walk(p) with topdown=False (used at line 171), with each entry also
carrying the forest of subtrees so the walker can descend into a found
album folder. -/
def walkUpD (p : Str) (t : FsTree) : List (Str × FsForest × List Str) :=
  match t with
  | .node subs files => walkUpDF p subs ++ [(p, subs, files)]
def walkUpDF (p : Str) (fr : FsForest) : List (Str × FsForest × List Str) :=
  match fr with
  | .fnil => []
  | .fcons n t rest => walkUpD (pjoin p n) t ++ walkUpDF p rest
end

/-- The directories tested by the loop of walk_media_dir lines 171-177: for
every walked entry, each subdirectory joined onto the entry's root, paired
with its subtree. -/
def checkedDirs (mediaPath : Str) (t : FsTree) : List (Str × FsTree) :=
  (walkUpD mediaPath t).flatMap
    (fun e => (forestToList e.2.1).map (fun ns => (pjoin e.1 ns.1, ns.2)))

/-- The accumulation loop of walk_media_dir lines 171-178: each directory
passing the depth test is processed as an album folder and its selections
are appended; a fatal error from process_album_dir aborts the whole run. -/
def collectAlbums (mediaPath minY maxY : Str) :
    List (Str × FsTree) → List Str → Except RunError (List Str)
  | [], acc => .ok acc
  | (fullpath, sub) :: rest, acc =>
    if albumDirTest mediaPath fullpath then
      match process_album_dir fullpath minY maxY (walkDown fullpath sub) with
      | .error e => .error e
      | .ok sel => collectAlbums mediaPath minY maxY rest (acc ++ sel)
    else collectAlbums mediaPath minY maxY rest acc

/-- walk_media_dir from karacopy.py lines 168-179, over a filesystem tree
rooted at media_path. -/
def walk_media_dir (mediaPath minY maxY : Str) (t : FsTree) :
    Except RunError (List Str) :=
  collectAlbums mediaPath minY maxY (checkedDirs mediaPath t) []

/-- Depth measure used by the specification: the number of non-empty path
segments after trimming leading and trailing separators. -/
def nonEmptySegCount (p : Str) : Nat :=
  ((pySplit pathSep (pyStrip [pathSep] p)).filter (fun s => !s.isEmpty)).length

/-- Join a chain of names onto a root, one os.path.join per step; every
directory os.walk encounters below a root has its path of this form. -/
def joinChain (p : Str) : List Str → Str
  | [] => p
  | n :: ns => joinChain (pjoin p n) ns

/-- Well-formedness of a walk list as produced by os.walk on a real
filesystem from a normal root path: roots are distinct, non-empty and do
not end with a separator, and file names are non-empty without separators. -/
def walkWf (walk : Fs) : Prop :=
  (walk.map (fun e => e.1)).Nodup ∧
    ∀ e ∈ walk, e.1 ≠ [] ∧ e.1.getLast? ≠ some pathSep ∧
      ∀ f ∈ e.2.2, f ≠ [] ∧ pathSep ∉ f

example : get_file_ext ("song.mp3".toList) = ("mp3".toList) := by decide
example : get_file_ext (".lrc".toList) = [] := by decide
example : get_file_ext ("a/b.c/d".toList) = [] := by decide
example : findYearTokens ("Danseparc [1983]".toList) = [1983] := by decide
example : findYearTokens ("[1111] x [2345]".toList) = [1111, 2345] := by decide
example : findYearTokens ("[12345]".toList) = [] := by decide
example : findYearTokens ("[[1983]".toList) = [1983] := by decide
example : get_path_depth ("/a/b".toList) = 2 := by decide
example : pyStrip ("/music".toList) ("/music/song.mp3".toList) = ("ong.mp3".toList) := by
  decide
example :
    copy_file_dest ("/music".toList) ("/out".toList)
      ("/music/ArtistX/Album [1985]/01.mp3".toList) =
    .ok ("/out/ArtistX/Album [1985]/01.mp3".toList) := by rfl

/-! Lemmas about the regex scan. -/

theorem hasTok_cons {c : Char} {s : Str} (h : HasTok s) : HasTok (c :: s) := by
  obtain ⟨u, d1, d2, d3, d4, v, rfl, hd⟩ := h
  exact ⟨c :: u, d1, d2, d3, d4, v, rfl, hd⟩

theorem findYearTokensAux_cons_ne {c : Char} (fuel : Nat) (rest : Str)
    (hc : ¬ c = '[') :
    findYearTokensAux (fuel + 1) (c :: rest) = findYearTokensAux fuel rest := by
  simp [findYearTokensAux, hc]

theorem findYearTokensAux_of_not_hasTok (fuel : Nat) :
    ∀ s : Str, ¬ HasTok s → findYearTokensAux fuel s = [] := by
  induction fuel with
  | zero => intro s _; rfl
  | succ n ih =>
    intro s hs
    match s with
    | [] => rfl
    | c :: rest =>
      by_cases hc : c = '['
      · subst hc
        show findYearTokensAux (n + 1) ('[' :: rest) = []
        simp only [findYearTokensAux]
        split
        · split
          · rename_i d1 d2 d3 d4 rest2
            split
            · rename_i hdig
              exact absurd ⟨[], d1, d2, d3, d4, rest2, rfl, hdig⟩ hs
            · exact ih _ (fun h => hs (hasTok_cons h))
          · exact ih _ (fun h => hs (hasTok_cons h))
        · rename_i hfalse
          exact absurd trivial hfalse
      · rw [findYearTokensAux_cons_ne n rest hc]
        exact ih rest (fun h => hs (hasTok_cons h))

theorem getLast?_cons_of_ne_nil {α : Type} {l : List α} (a : α) (h : l ≠ []) :
    (a :: l).getLast? = l.getLast? := by
  cases l with
  | nil => exact absurd rfl h
  | cons b t => exact List.getLast?_cons_cons

theorem findYearTokensAux_tok_step (n : Nat) (d1 d2 d3 d4 : Char) (b : Str)
    (hd : (d1.isDigit && d2.isDigit && d3.isDigit && d4.isDigit) = true) :
    findYearTokensAux (n + 1) ('[' :: d1 :: d2 :: d3 :: d4 :: ']' :: b) =
      digitsToNat [d1, d2, d3, d4] :: findYearTokensAux n b := by
  simp [findYearTokensAux, hd]

theorem findYearTokensAux_append_tok (d1 d2 d3 d4 : Char)
    (hd : (d1.isDigit && d2.isDigit && d3.isDigit && d4.isDigit) = true) :
    ∀ fuel a b, (a ++ '[' :: d1 :: d2 :: d3 :: d4 :: ']' :: b).length ≤ fuel →
      findYearTokensAux fuel (a ++ '[' :: d1 :: d2 :: d3 :: d4 :: ']' :: b) ≠ [] ∧
        (¬ HasTok b →
          (findYearTokensAux fuel
              (a ++ '[' :: d1 :: d2 :: d3 :: d4 :: ']' :: b)).getLast? =
            some (digitsToNat [d1, d2, d3, d4])) := by
  intro fuel
  induction fuel with
  | zero =>
    intro a b hlen
    exfalso
    simp only [List.length_append, List.length_cons] at hlen
    omega
  | succ n ih =>
    intro a b hlen
    match a with
    | [] =>
      rw [List.nil_append, findYearTokensAux_tok_step n d1 d2 d3 d4 b hd]
      refine ⟨by simp, fun hb => ?_⟩
      rw [findYearTokensAux_of_not_hasTok n b hb]
      rfl
    | c :: a' =>
      have hlen' : (a' ++ '[' :: d1 :: d2 :: d3 :: d4 :: ']' :: b).length ≤ n := by
        simp only [List.cons_append, List.length_cons] at hlen
        simp only [List.length_append, List.length_cons] at hlen ⊢
        omega
      by_cases hc : c = '['
      · subst hc
        rw [List.cons_append]
        show findYearTokensAux (n + 1)
            ('[' :: (a' ++ '[' :: d1 :: d2 :: d3 :: d4 :: ']' :: b)) ≠ [] ∧ _
        simp only [findYearTokensAux]
        split
        · split
          · rename_i e1 e2 e3 e4 r2 heq
            split
            · rename_i hdig
              rcases a' with _ | ⟨x1, _ | ⟨x2, _ | ⟨x3, _ | ⟨x4, _ | ⟨x5, a6⟩⟩⟩⟩⟩
              · exfalso
                simp only [List.nil_append, List.cons.injEq] at heq
                obtain ⟨-, -, -, -, h5, -⟩ := heq
                rw [h5] at hd
                simp at hd
              · exfalso
                simp only [List.cons_append, List.nil_append,
                  List.cons.injEq] at heq
                obtain ⟨-, -, -, -, h5, -⟩ := heq
                rw [h5] at hd
                simp at hd
              · exfalso
                simp only [List.cons_append, List.nil_append,
                  List.cons.injEq] at heq
                obtain ⟨-, -, -, -, h5, -⟩ := heq
                rw [h5] at hd
                simp at hd
              · exfalso
                simp only [List.cons_append, List.nil_append,
                  List.cons.injEq] at heq
                obtain ⟨-, -, -, -, h5, -⟩ := heq
                rw [h5] at hd
                simp at hd
              · exfalso
                simp only [List.cons_append, List.nil_append,
                  List.cons.injEq] at heq
                obtain ⟨-, -, -, -, h5, -⟩ := heq
                exact absurd h5 (by decide)
              · simp only [List.cons_append, List.cons.injEq] at heq
                obtain ⟨-, -, -, -, -, hr2⟩ := heq
                have hlen6 : (a6 ++ '[' :: d1 :: d2 :: d3 :: d4 :: ']' :: b).length ≤ n := by
                  simp only [List.cons_append, List.length_cons] at hlen
                  simp only [List.length_append, List.length_cons] at hlen ⊢
                  omega
                obtain ⟨hne, hlast⟩ := ih a6 b hlen6
                subst hr2
                refine ⟨by simp, fun hb => ?_⟩
                rw [getLast?_cons_of_ne_nil _ hne]
                exact hlast hb
            · exact ih a' b hlen'
          · exact ih a' b hlen'
        · rename_i hfalse
          exact absurd trivial hfalse
      · rw [List.cons_append, findYearTokensAux_cons_ne n _ hc]
        exact ih a' b hlen'

theorem findYearTokens_eq_nil_iff (s : Str) :
    findYearTokens s = [] ↔ ¬ HasTok s := by
  constructor
  · intro h ht
    obtain ⟨u, d1, d2, d3, d4, v, rfl, hd⟩ := ht
    exact (findYearTokensAux_append_tok d1 d2 d3 d4 hd _ u v le_rfl).1 h
  · exact findYearTokensAux_of_not_hasTok _ s

theorem albumYearOf_eq_none_iff (s : Str) :
    albumYearOf s = none ↔ ¬ HasTok s := by
  rw [← findYearTokens_eq_nil_iff]
  unfold albumYearOf
  cases findYearTokens s <;> simp

/-! Lemmas about process_album_dir. -/

theorem process_album_dir_ok (albumPath minY maxY : Str) (walk : Fs) (y : Nat)
    (h2 : 2 ≤ (pySplit pathSep albumPath).length)
    (hy : albumYearOf (lastSegOf albumPath) = some y) :
    process_album_dir albumPath minY maxY walk =
      .ok (if yearInRange minY maxY y then selectFiles walk else []) := by
  unfold process_album_dir
  rw [if_neg (by omega), hy]

theorem process_album_dir_none (albumPath minY maxY : Str) (walk : Fs)
    (h2 : 2 ≤ (pySplit pathSep albumPath).length)
    (hy : albumYearOf (lastSegOf albumPath) = none) :
    process_album_dir albumPath minY maxY walk =
      .error (.unparsableAlbumYear (lastSegOf albumPath) indexErrMsg) := by
  unfold process_album_dir
  rw [if_neg (by omega), hy]

theorem process_album_dir_ok_parses (albumPath minY maxY : Str) (walk : Fs)
    (sel : List Str) (h : process_album_dir albumPath minY maxY walk = .ok sel) :
    (albumYearOf (lastSegOf albumPath)).isSome = true := by
  unfold process_album_dir at h
  split at h
  · exact absurd h (by simp)
  · split at h
    · exact absurd h (by simp)
    · simp_all

theorem collectAlbums_ok_parses (mediaPath minY maxY : Str) :
    ∀ (l : List (Str × FsTree)) (acc out : List Str),
      collectAlbums mediaPath minY maxY l acc = .ok out →
      ∀ fullpath sub, (fullpath, sub) ∈ l → albumDirTest mediaPath fullpath = true →
        (albumYearOf (lastSegOf fullpath)).isSome = true := by
  intro l
  induction l with
  | nil => intro acc out _ fp sub hmem; exact absurd hmem (by simp)
  | cons hd tl ih =>
    intro acc out hok fp sub hmem htest
    obtain ⟨hdp, hdt⟩ := hd
    unfold collectAlbums at hok
    rcases List.mem_cons.mp hmem with heq | hmem'
    · obtain ⟨rfl, rfl⟩ := Prod.mk.injEq .. ▸ heq
      rw [if_pos htest] at hok
      cases hpa : process_album_dir fp minY maxY (walkDown fp sub) with
      | error e => rw [hpa] at hok; exact absurd hok (by simp)
      | ok sel => exact process_album_dir_ok_parses _ _ _ _ _ hpa
    · split at hok
      · cases hpa : process_album_dir hdp minY maxY (walkDown hdp hdt) with
        | error e => rw [hpa] at hok; exact absurd hok (by simp)
        | ok sel => rw [hpa] at hok; exact ih _ _ hok fp sub hmem' htest
      · exact ih _ _ hok fp sub hmem' htest

/-- Claim C3: for every album folder name containing at least one bracketed
4-digit token, year extraction returns the integer of the last (rightmost)
such non-overlapping match: writing the name as a, then the token, then a
remainder b containing no further token, the extracted year is the token's
integer, whatever a contains; with exactly one token this is that integer. -/
theorem c3_year_extraction_last (a b : Str) (d1 d2 d3 d4 : Char)
    (hd : (d1.isDigit && d2.isDigit && d3.isDigit && d4.isDigit) = true)
    (hb : ¬ HasTok b) :
    albumYearOf (a ++ '[' :: d1 :: d2 :: d3 :: d4 :: ']' :: b) =
      some (digitsToNat [d1, d2, d3, d4]) :=
  (findYearTokensAux_append_tok d1 d2 d3 d4 hd _ a b le_rfl).2 hb

/-- Witness for c3_year_extraction_last: a name with two bracketed tokens;
extraction returns the last one, 1983, not 1111. -/
theorem c3_year_extraction_last_witness :
    (('1'.isDigit && '9'.isDigit && '8'.isDigit && '3'.isDigit) = true) ∧
      albumYearOf (("Danseparc [1111] x ".toList) ++
        '[' :: '1' :: '9' :: '8' :: '3' :: ']' :: []) = some 1983 :=
  ⟨by decide, c3_year_extraction_last (("Danseparc [1111] x ".toList)) []
    '1' '9' '8' '3' (by decide) ((findYearTokens_eq_nil_iff []).mp (by decide))⟩

/-- Claim C4: an album folder whose name has no bracketed 4-digit token is
fatal: process_album_dir yields the unparsable-year error carrying the album
name and the parse failure detail (the run exits non-zero there); when the
walker reaches the first such folder the whole run stops immediately with
that folder's error, whatever remains to be walked; and a run that succeeds
can have encountered no depth-test-passing album folder with an unparsable
name, so there is no skip-and-continue. -/
theorem c4_unparsable_year_fatal :
    (∀ albumPath minY maxY walk,
      2 ≤ (pySplit pathSep albumPath).length →
      ¬ HasTok (lastSegOf albumPath) →
      process_album_dir albumPath minY maxY walk =
        .error (.unparsableAlbumYear (lastSegOf albumPath) indexErrMsg)) ∧
    (∀ mediaPath minY maxY fullpath sub rest acc,
      albumDirTest mediaPath fullpath = true →
      2 ≤ (pySplit pathSep fullpath).length →
      ¬ HasTok (lastSegOf fullpath) →
      collectAlbums mediaPath minY maxY ((fullpath, sub) :: rest) acc =
        .error (.unparsableAlbumYear (lastSegOf fullpath) indexErrMsg)) ∧
    (∀ mediaPath minY maxY l acc out,
      collectAlbums mediaPath minY maxY l acc = .ok out →
      ∀ fullpath sub, (fullpath, sub) ∈ l →
        albumDirTest mediaPath fullpath = true →
        (albumYearOf (lastSegOf fullpath)).isSome = true) := by
  refine ⟨?_, ?_, ?_⟩
  · intro albumPath minY maxY walk h2 hn
    exact process_album_dir_none albumPath minY maxY walk h2
      ((albumYearOf_eq_none_iff _).mpr hn)
  · intro mediaPath minY maxY fullpath sub rest acc htest h2 hn
    unfold collectAlbums
    rw [if_pos htest, process_album_dir_none _ _ _ _ h2
      ((albumYearOf_eq_none_iff _).mpr hn)]
  · intro mediaPath minY maxY l acc out hok fullpath sub hmem htest
    exact collectAlbums_ok_parses mediaPath minY maxY l acc out hok
      fullpath sub hmem htest

/-- Witness for c4_unparsable_year_fatal: a concrete album folder with no
bracketed year makes process_album_dir fail with the reported album name. -/
theorem c4_unparsable_year_fatal_witness :
    (2 ≤ (pySplit pathSep ("/m/Artist/Album".toList)).length) ∧
      process_album_dir ("/m/Artist/Album".toList) anyStr anyStr [] =
        .error (.unparsableAlbumYear (("Album".toList)) indexErrMsg) :=
  ⟨by decide, c4_unparsable_year_fatal.1 _ _ _ _ (by decide)
    ((findYearTokens_eq_nil_iff _).mp (by decide))⟩

/-- Conclusion of claim C5, parameterised over the configuration, the album
and its parsed year; see c5_year_range_inclusive. -/
def C5Prop (albumPath minY maxY : Str) (y : Nat) (walk : Fs) : Prop :=
  (∀ z : Nat, yearInRange anyStr anyStr z = true) ∧
  (minY ≠ anyStr → strToNat minY = y → (maxY = anyStr ∨ y ≤ strToNat maxY) →
    yearInRange minY maxY y = true) ∧
  (maxY ≠ anyStr → strToNat maxY = y → (minY = anyStr ∨ strToNat minY ≤ y) →
    yearInRange minY maxY y = true) ∧
  (yearInRange minY maxY y = false →
    process_album_dir albumPath minY maxY walk = .ok []) ∧
  (yearInRange minY maxY y = true →
    process_album_dir albumPath minY maxY walk = .ok (selectFiles walk))

/-- Claim C5: the year-range filter is inclusive at both bounds and treats
the sentinel "any" as unbounded; with both bounds "any" every album passes;
a year equal to min (resp. max) passes when the other bound allows it; and
an out-of-range year yields an empty selection, not an error. -/
theorem c5_year_range_inclusive (albumPath minY maxY : Str) (y : Nat) (walk : Fs)
    (h2 : 2 ≤ (pySplit pathSep albumPath).length)
    (hy : albumYearOf (lastSegOf albumPath) = some y) :
    C5Prop albumPath minY maxY y walk := by
  refine ⟨?_, ?_, ?_, ?_, ?_⟩
  · intro z; simp [yearInRange]
  · intro hm hv hmax
    rcases hmax with h | h <;> simp [yearInRange, hv, h]
  · intro hM hv hmin
    rcases hmin with h | h <;> simp [yearInRange, hv, h]
  · intro hf
    rw [process_album_dir_ok albumPath minY maxY walk y h2 hy]
    simp [hf]
  · intro ht
    rw [process_album_dir_ok albumPath minY maxY walk y h2 hy]
    simp [ht]

/-- Witness for c5_year_range_inclusive at a concrete album and bounds. -/
theorem c5_year_range_inclusive_witness :
    (2 ≤ (pySplit pathSep ("/m/a/Album [1980]".toList)).length) ∧
      albumYearOf (lastSegOf ("/m/a/Album [1980]".toList)) = some 1980 ∧
      C5Prop ("/m/a/Album [1980]".toList) ("1980".toList) ("1989".toList) 1980 [] :=
  ⟨by decide, by decide,
    c5_year_range_inclusive _ _ _ 1980 [] (by decide) (by decide)⟩

/-- Claim C1 is violated by the code: str.strip(source_dir) removes the
characters of source_dir as a set from both ends, not the prefix. At the
input below (the POSIX analogue of copy_file's own docstring example, lines
140-150) the code drops the leading M of the artist folder, mapping the file
under "artha and the Muffins", while the specified destination mapping (and
the docstring itself) keep "Martha and the Muffins". -/
theorem c1_destination_mapping_code_bug :
    copy_file_dest ("/Music".toList) ("/Playlists/1990".toList)
        (("/Music/Martha and the Muffins/Danseparc [1983]/01 - Obedience.mp3".toList)) =
      .ok (("/Playlists/1990/artha and the Muffins/Danseparc [1983]/01 - Obedience.mp3".toList)) ∧
    destPathSpec ("/Music".toList) ("/Playlists/1990".toList)
        (("/Music/Martha and the Muffins/Danseparc [1983]/01 - Obedience.mp3".toList)) =
      .ok (("/Playlists/1990/Martha and the Muffins/Danseparc [1983]/01 - Obedience.mp3".toList)) ∧
    (("/Playlists/1990/artha and the Muffins/Danseparc [1983]/01 - Obedience.mp3".toList) : Str) ≠
      ("/Playlists/1990/Martha and the Muffins/Danseparc [1983]/01 - Obedience.mp3".toList) :=
  ⟨rfl, rfl, by decide⟩

/-- Claim C8: on the spec's round-trip example the computed destination is
the source-root-relative path re-rooted under the destination root (the
characters adjacent to the stripped region happen not to lie in the
character set of "/music", so the strip bug of C1 is not visible here). -/
theorem c8_destination_roundtrip :
    copy_file_dest ("/music".toList) ("/out".toList)
        (("/music/ArtistX/Album [1985]/01.mp3".toList)) =
      .ok (("/out/ArtistX/Album [1985]/01.mp3".toList)) := rfl

/-! Lemmas about takeWhile and dropWhile over appended lists. -/

theorem takeWhile_append_all {p : Char → Bool} {A : Str} (B : Str)
    (h : ∀ a ∈ A, p a = true) : (A ++ B).takeWhile p = A ++ B.takeWhile p := by
  induction A with
  | nil => simp
  | cons c A ih =>
    simp only [List.cons_append]
    rw [List.takeWhile_cons_of_pos (h c (by simp)),
      ih (fun a ha => h a (by simp [ha]))]

theorem dropWhile_append_all {p : Char → Bool} {A : Str} (B : Str)
    (h : ∀ a ∈ A, p a = true) : (A ++ B).dropWhile p = B.dropWhile p := by
  induction A with
  | nil => simp
  | cons c A ih =>
    simp only [List.cons_append]
    rw [List.dropWhile_cons_of_pos (h c (by simp)),
      ih (fun a ha => h a (by simp [ha]))]

theorem takeWhile_append_stop {p : Char → Bool} {A : Str} {c : Char} (B : Str)
    (hA : ∀ a ∈ A, p a = true) (hc : p c = false) :
    (A ++ c :: B).takeWhile p = A := by
  rw [takeWhile_append_all _ hA, List.takeWhile_cons_of_neg (by simp [hc])]
  simp

theorem dropWhile_append_stop {p : Char → Bool} {A : Str} {c : Char} (B : Str)
    (hA : ∀ a ∈ A, p a = true) (hc : p c = false) :
    (A ++ c :: B).dropWhile p = c :: B := by
  rw [dropWhile_append_all _ hA, List.dropWhile_cons_of_neg (by simp [hc])]

theorem dropWhile_head_false {p : Char → Bool} {l r : Str} {c : Char}
    (h : l.dropWhile p = c :: r) : p c = false := by
  induction l with
  | nil => simp at h
  | cons a t ih =>
    by_cases hp : p a = true
    · rw [List.dropWhile_cons_of_pos hp] at h; exact ih h
    · rw [List.dropWhile_cons_of_neg hp] at h
      obtain ⟨rfl, -⟩ := List.cons.injEq .. ▸ h
      exact Bool.eq_false_iff.mpr hp

/-! Lemmas about baseNameOf, pjoin and get_file_ext. -/

theorem baseNameOf_of_sepFree {f : Str} (hf : pathSep ∉ f) : baseNameOf f = f := by
  unfold baseNameOf
  rw [List.takeWhile_eq_self_iff.mpr, List.reverse_reverse]
  intro x hx
  have hxf : x ∈ f := List.mem_reverse.mp hx
  simp only [bne_iff_ne, ne_eq, decide_eq_true_eq]
  exact fun h => hf (h ▸ hxf)

theorem baseNameOf_sep_append {r f : Str} (hf : pathSep ∉ f) :
    baseNameOf (r ++ pathSep :: f) = f := by
  unfold baseNameOf
  have hrev : (r ++ pathSep :: f).reverse = f.reverse ++ pathSep :: r.reverse := by
    simp
  rw [hrev, takeWhile_append_stop _ ?_ (by simp), List.reverse_reverse]
  intro a ha
  have haf : a ∈ f := List.mem_reverse.mp ha
  simp only [bne_iff_ne, ne_eq, decide_eq_true_eq]
  exact fun h => hf (h ▸ haf)

theorem pjoin_sep_shape {r f : Str} (hr : r ≠ []) (hl : r.getLast? ≠ some pathSep)
    (hf : pathSep ∉ f) : pjoin r f = r ++ pathSep :: f := by
  unfold pjoin
  have h1 : ¬ f.head? = some pathSep := by
    cases f with
    | nil => simp
    | cons c t =>
      simp only [List.head?_cons, Option.some.injEq]
      exact fun h => hf (by simp [h])
  rw [if_neg h1, if_neg (by simp [hr, hl])]

theorem baseNameOf_pjoin {r f : Str} (hf : pathSep ∉ f) :
    baseNameOf (pjoin r f) = f := by
  unfold pjoin
  have h1 : ¬ f.head? = some pathSep := by
    cases f with
    | nil => simp
    | cons c t =>
      simp only [List.head?_cons, Option.some.injEq]
      exact fun h => hf (by simp [h])
  rw [if_neg h1]
  by_cases h2 : r = [] ∨ r.getLast? = some pathSep
  · rw [if_pos h2]
    rcases h2 with rfl | hlast
    · simpa using baseNameOf_of_sepFree hf
    · obtain ⟨r', rfl⟩ := List.getLast?_eq_some_iff.mp hlast
      rw [List.append_assoc, List.singleton_append]
      exact baseNameOf_sep_append hf
  · rw [if_neg h2]
    exact baseNameOf_sep_append hf

theorem get_file_ext_pjoin {f : Str} (r : Str) (hf : pathSep ∉ f) :
    get_file_ext (pjoin r f) = get_file_ext f := by
  show pyStrip ['.'] (extSplitBase (baseNameOf (pjoin r f))).2 =
    pyStrip ['.'] (extSplitBase (baseNameOf f)).2
  rw [baseNameOf_pjoin hf, baseNameOf_of_sepFree hf]

theorem dirPartOf_of_sepFree {f : Str} (hf : pathSep ∉ f) : dirPartOf f = [] := by
  unfold dirPartOf
  rw [List.dropWhile_eq_nil_iff.mpr]
  · rfl
  · intro x hx
    have hxf : x ∈ f := List.mem_reverse.mp hx
    simp only [bne_iff_ne, ne_eq, decide_eq_true_eq]
    exact fun h => hf (h ▸ hxf)

theorem stemOf_of_sepFree {f : Str} (hf : pathSep ∉ f) :
    stemOf f = (extSplitBase f).1 := by
  show dirPartOf f ++ (extSplitBase (baseNameOf f)).1 = _
  rw [dirPartOf_of_sepFree hf, baseNameOf_of_sepFree hf, List.nil_append]

theorem dropWhile_all_false {p : Char → Bool} {l : Str}
    (h : ∀ a ∈ l, p a = false) : l.dropWhile p = l := by
  cases l with
  | nil => rfl
  | cons c t => exact List.dropWhile_cons_of_neg (by simp [h c (by simp)])

theorem pyStrip_all_false {chars s : Str}
    (h : ∀ a ∈ s, chars.contains a = false) : pyStrip chars s = s := by
  unfold pyStrip
  rw [dropWhile_all_false h,
    dropWhile_all_false (fun a ha => h a (List.mem_reverse.mp ha)),
    List.reverse_reverse]

theorem contains_single_eq_false {a c : Char} (h : a ≠ c) :
    ([c].contains a) = false := by
  simp [List.contains, h]

theorem pyStrip_dot_cons {x : Str} (hx : '.' ∉ x) : pyStrip ['.'] ('.' :: x) = x := by
  have hall : ∀ a ∈ x, (['.'].contains a) = false := fun a ha =>
    contains_single_eq_false (fun he => hx (by rwa [he] at ha))
  unfold pyStrip
  rw [List.dropWhile_cons_of_pos (by rfl)]
  rw [dropWhile_all_false hall]
  rw [dropWhile_all_false (fun a ha => hall a (List.mem_reverse.mp ha))]
  rw [List.reverse_reverse]

theorem extSplitBase_decomp {b : Str} (h : (extSplitBase b).2 ≠ []) :
    ∃ lead c0 r1' suf,
      (∀ c ∈ lead, c = '.') ∧ c0 ≠ '.' ∧ '.' ∉ suf ∧
      b = lead ++ (c0 :: r1') ++ '.' :: suf ∧
      extSplitBase b = (lead ++ c0 :: r1', '.' :: suf) := by
  by_cases hif : ((extRsuf b).length == (extRest b).length) = true
  · exfalso
    apply h
    unfold extSplitBase
    rw [if_pos hif]
  · have hlen_ne : (extRsuf b).length ≠ (extRest b).length := by simpa using hif
    have hsplit : extRsuf b ++ (extRest b).reverse.dropWhile (fun c => c != '.') =
        (extRest b).reverse := by
      unfold extRsuf
      exact List.takeWhile_append_dropWhile _ _
    cases hw : (extRest b).reverse.dropWhile (fun c => c != '.') with
    | nil =>
      exfalso
      rw [hw, List.append_nil] at hsplit
      exact hlen_ne (by rw [hsplit]; simp)
    | cons c1 w' =>
      have hc1 : c1 = '.' := by
        have := dropWhile_head_false hw
        simpa using this
      subst hc1
      have hrest_rev : (extRest b).reverse = extRsuf b ++ '.' :: w' := by
        rw [← hsplit, hw]
      have hrest_eq : extRest b = w'.reverse ++ '.' :: (extRsuf b).reverse := by
        have h2 := congrArg List.reverse hrest_rev
        simpa using h2
      rcases hwr : w'.reverse with _ | ⟨c0, r1'⟩
      · exfalso
        rw [hwr, List.nil_append] at hrest_eq
        have := dropWhile_head_false (p := fun c => c == '.') (l := b) hrest_eq
        simp at this
      · rw [hwr] at hrest_eq
        have hc0 : c0 ≠ '.' := by
          have hshape : b.dropWhile (fun c => c == '.') =
              c0 :: (r1' ++ '.' :: (extRsuf b).reverse) := by
            rw [show b.dropWhile (fun c => c == '.') = extRest b from rfl, hrest_eq]
            simp
          have := dropWhile_head_false hshape
          simpa using this
        have htklen : (extRest b).length - (extRsuf b).length - 1 =
            (c0 :: r1').length := by
          rw [hrest_eq]; simp; omega
        have htake : (extRest b).take
            ((extRest b).length - (extRsuf b).length - 1) = c0 :: r1' := by
          rw [htklen, hrest_eq]
          exact List.take_left (c0 :: r1') ('.' :: (extRsuf b).reverse)
        have hval : extSplitBase b = (extLead b ++ c0 :: r1', '.' :: (extRsuf b).reverse) := by
          unfold extSplitBase
          rw [if_neg hif, htake]
        refine ⟨extLead b, c0, r1', (extRsuf b).reverse, ?_, hc0, ?_, ?_, hval⟩
        · intro c hc
          have := List.mem_takeWhile_imp hc
          simpa using this
        · intro hdot
          have := List.mem_takeWhile_imp (List.mem_reverse.mp hdot)
          simp at this
        · conv_lhs => rw [← List.takeWhile_append_dropWhile
            (p := fun c => c == '.') (l := b)]
          rw [show b.takeWhile (fun c => c == '.') = extLead b from rfl,
            show b.dropWhile (fun c => c == '.') = extRest b from rfl, hrest_eq]
          simp

theorem extSplitBase_reassemble (lead : Str) (c0 : Char) (r1' m : Str)
    (hlead : ∀ c ∈ lead, c = '.') (hc0 : c0 ≠ '.') (hm : '.' ∉ m) :
    extSplitBase (lead ++ (c0 :: r1') ++ '.' :: m) = (lead ++ c0 :: r1', '.' :: m) := by
  have hleadB : ∀ c ∈ lead, ((c == '.') : Bool) = true := fun c hc => by
    simp [hlead c hc]
  have hc0B : ((c0 == '.') : Bool) = false := by simp [hc0]
  have hshape : lead ++ (c0 :: r1') ++ '.' :: m = lead ++ c0 :: (r1' ++ '.' :: m) := by
    simp
  have hlead' : extLead (lead ++ (c0 :: r1') ++ '.' :: m) = lead := by
    unfold extLead
    rw [hshape]
    exact takeWhile_append_stop _ hleadB hc0B
  have hrest' : extRest (lead ++ (c0 :: r1') ++ '.' :: m) = c0 :: (r1' ++ '.' :: m) := by
    unfold extRest
    rw [hshape]
    exact dropWhile_append_stop _ hleadB hc0B
  have hmB : ∀ a ∈ m.reverse, ((a != '.') : Bool) = true := fun a ha => by
    simp only [bne_iff_ne, ne_eq, decide_eq_true_eq]
    exact fun he => hm (he ▸ List.mem_reverse.mp ha)
  have hrsuf' : extRsuf (lead ++ (c0 :: r1') ++ '.' :: m) = m.reverse := by
    unfold extRsuf
    rw [hrest']
    have hrev : (c0 :: (r1' ++ '.' :: m)).reverse =
        m.reverse ++ '.' :: (r1'.reverse ++ [c0]) := by simp
    rw [hrev]
    exact takeWhile_append_stop _ hmB (by simp)
  unfold extSplitBase
  rw [hlead', hrest', hrsuf', if_neg (by simp; omega)]
  have hlen : (c0 :: (r1' ++ '.' :: m)).length - m.reverse.length - 1 =
      (c0 :: r1').length := by simp; omega
  rw [hlen, show c0 :: (r1' ++ '.' :: m) = (c0 :: r1') ++ '.' :: m by simp,
    List.take_left (c0 :: r1') ('.' :: m), List.reverse_reverse]

theorem get_file_ext_of_sepFree {f : Str} (hf : pathSep ∉ f) :
    get_file_ext f = pyStrip ['.'] (extSplitBase f).2 := by
  show pyStrip ['.'] (extSplitBase (baseNameOf f)).2 = _
  rw [baseNameOf_of_sepFree hf]

theorem ext_decomp {f x : Str} (hsep : pathSep ∉ f) (hx : get_file_ext f = x)
    (hne : x ≠ []) :
    ∃ lead c0 r1', (∀ c ∈ lead, c = '.') ∧ c0 ≠ '.' ∧ '.' ∉ x ∧
      f = lead ++ (c0 :: r1') ++ '.' :: x ∧ stemOf f = lead ++ c0 :: r1' := by
  rw [get_file_ext_of_sepFree hsep] at hx
  have h2 : (extSplitBase f).2 ≠ [] := by
    intro h0
    rw [h0] at hx
    exact hne (by rw [← hx]; rfl)
  obtain ⟨lead, c0, r1', suf, hlead, hc0, hsuf, hfe, hval⟩ := extSplitBase_decomp h2
  simp only [hval] at hx
  rw [pyStrip_dot_cons hsuf] at hx
  subst hx
  exact ⟨lead, c0, r1', hlead, hc0, hsuf, hfe,
    by rw [stemOf_of_sepFree hsep, hval]⟩

theorem ext_reassemble (lead : Str) (c0 : Char) (r1' m : Str)
    (hsep : pathSep ∉ lead ++ (c0 :: r1') ++ '.' :: m)
    (hlead : ∀ c ∈ lead, c = '.') (hc0 : c0 ≠ '.') (hm : '.' ∉ m) :
    get_file_ext (lead ++ (c0 :: r1') ++ '.' :: m) = m ∧
      stemOf (lead ++ (c0 :: r1') ++ '.' :: m) = lead ++ c0 :: r1' := by
  constructor
  · rw [get_file_ext_of_sepFree hsep]
    simp only [extSplitBase_reassemble lead c0 r1' m hlead hc0 hm]
    exact pyStrip_dot_cons hm
  · rw [stemOf_of_sepFree hsep, extSplitBase_reassemble lead c0 r1' m hlead hc0 hm]

/-! Membership characterisation of the selection. -/

theorem mem_selectOne {fs : Fs} {root f p : Str} :
    p ∈ selectOne fs root f ↔
      ((get_file_ext f ∈ EXTS_LYRICS ∧ p = pjoin root f) ∨
       (get_file_ext f ∈ EXTS_LYRICS ∧ ∃ m ∈ EXTS_MEDIA,
         p = pjoin root (stemOf f ++ '.' :: m) ∧ existsFs fs p = true) ∨
       (get_file_ext f ∉ EXTS_LYRICS ∧ get_file_ext f ∈ EXTS_ART ∧
         p = pjoin root f)) := by
  unfold selectOne
  by_cases h1 : get_file_ext f ∈ EXTS_LYRICS
  · rw [if_pos h1]
    simp only [List.mem_cons, List.mem_filterMap, h1, true_and, not_true_eq_false,
      false_and, or_false]
    constructor
    · rintro (rfl | ⟨m, hm, hsome⟩)
      · exact Or.inl rfl
      · right
        by_cases hex : existsFs fs (pjoin root (stemOf f ++ '.' :: m)) = true
        · rw [if_pos hex] at hsome
          obtain rfl := Option.some.inj hsome
          exact ⟨m, hm, rfl, hex⟩
        · rw [if_neg hex] at hsome
          exact absurd hsome (by simp)
    · rintro (rfl | ⟨m, hm, rfl, hex⟩)
      · exact Or.inl rfl
      · exact Or.inr ⟨m, hm, by rw [if_pos hex]⟩
  · rw [if_neg h1]
    by_cases h2 : get_file_ext f ∈ EXTS_ART
    · rw [if_pos h2]
      simp [h1, h2]
    · rw [if_neg h2]
      simp [h1, h2]

theorem mem_selectFiles {walk : Fs} {p : Str} :
    p ∈ selectFiles walk ↔
      ∃ e ∈ walk, ∃ f ∈ e.2.2, p ∈ selectOne walk e.1 f := by
  unfold selectFiles
  simp [List.mem_flatMap]

theorem existsFs_iff {walk : Fs} {p : Str} :
    existsFs walk p = true ↔ ∃ e ∈ walk, ∃ f ∈ e.2.2, pjoin e.1 f = p := by
  unfold existsFs
  simp [List.any_eq_true]

theorem selectFiles_subset_exists {walk : Fs} {p : Str}
    (hp : p ∈ selectFiles walk) : existsFs walk p = true := by
  obtain ⟨e, he, f, hf, hsel⟩ := mem_selectFiles.mp hp
  rcases mem_selectOne.mp hsel with ⟨h1, rfl⟩ | ⟨h1, m, hm, rfl, hex⟩ | ⟨h1, h2, rfl⟩
  · exact existsFs_iff.mpr ⟨e, he, f, hf, rfl⟩
  · exact hex
  · exact existsFs_iff.mpr ⟨e, he, f, hf, rfl⟩

theorem pjoin_inj {r1 f1 r2 f2 : Str}
    (hr1 : r1 ≠ []) (hl1 : r1.getLast? ≠ some pathSep) (hf1 : pathSep ∉ f1)
    (hr2 : r2 ≠ []) (hl2 : r2.getLast? ≠ some pathSep) (hf2 : pathSep ∉ f2)
    (h : pjoin r1 f1 = pjoin r2 f2) : r1 = r2 ∧ f1 = f2 := by
  rw [pjoin_sep_shape hr1 hl1 hf1, pjoin_sep_shape hr2 hl2 hf2] at h
  have hb := congrArg baseNameOf h
  rw [baseNameOf_sep_append hf1, baseNameOf_sep_append hf2] at hb
  subst hb
  exact ⟨List.append_cancel_right h, rfl⟩

theorem media_facts {m : Str} (hm : m ∈ EXTS_MEDIA) :
    '.' ∉ m ∧ pathSep ∉ m ∧ m ≠ [] := by
  simp only [EXTS_MEDIA, List.mem_cons, List.mem_singleton] at hm
  rcases hm with rfl | hm
  · refine ⟨by decide, by decide, by decide⟩
  · simp only [List.mem_nil_iff, or_false] at hm
    subst hm
    refine ⟨by decide, by decide, by decide⟩

theorem sibling_facts {f x m : Str} (hsep : pathSep ∉ f)
    (hx : get_file_ext f = x) (hxne : x ≠ []) (hmd : '.' ∉ m) (hms : pathSep ∉ m) :
    get_file_ext (stemOf f ++ '.' :: m) = m ∧
      stemOf (stemOf f ++ '.' :: m) = stemOf f ∧
      pathSep ∉ (stemOf f ++ '.' :: m) ∧ stemOf f ≠ [] := by
  obtain ⟨lead, c0, r1', hlead, hc0, hxd, hfe, hstem⟩ := ext_decomp hsep hx hxne
  have hsepg : pathSep ∉ lead ++ (c0 :: r1') ++ '.' :: m := by
    intro hc
    rcases List.mem_append.mp hc with hc | hc
    · exact hsep (by rw [hfe]; exact List.mem_append.mpr (Or.inl hc))
    · rcases List.mem_cons.mp hc with hc | hc
      · exact absurd hc (by decide)
      · exact hms hc
  obtain ⟨hge, hgs⟩ := ext_reassemble lead c0 r1' m hsepg hlead hc0 hmd
  rw [hstem]
  refine ⟨hge, by rw [hgs], hsepg, by simp⟩

theorem takeWhile_all_false {p : Char → Bool} {l : Str}
    (h : ∀ a ∈ l, p a = false) : l.takeWhile p = [] := by
  cases l with
  | nil => rfl
  | cons c t => exact List.takeWhile_cons_of_neg (by simp [h c (by simp)])

theorem extSplitBase_no_dot {b : Str} (hb : '.' ∉ b) : extSplitBase b = (b, []) := by
  have hrest : extRest b = b := by
    unfold extRest
    exact dropWhile_all_false (fun a ha => by
      simp only [beq_eq_false_iff_ne, ne_eq]
      exact fun he => hb (he ▸ ha))
  have hrsuf : extRsuf b = b.reverse := by
    unfold extRsuf
    rw [hrest]
    exact List.takeWhile_eq_self_iff.mpr (fun a ha => by
      simp only [bne_iff_ne, ne_eq, decide_eq_true_eq]
      exact fun he => hb (he ▸ List.mem_reverse.mp ha))
  unfold extSplitBase
  rw [hrest, hrsuf, if_pos (by simp)]

theorem extSplitBase_dotfile {w : Str} (hw : '.' ∉ w) :
    extSplitBase ('.' :: w) = ('.' :: w, []) := by
  have hrest : extRest ('.' :: w) = w := by
    unfold extRest
    rw [List.dropWhile_cons_of_pos (by rfl)]
    exact dropWhile_all_false (fun a ha => by
      simp only [beq_eq_false_iff_ne, ne_eq]
      exact fun he => hw (he ▸ ha))
  have hrsuf : extRsuf ('.' :: w) = w.reverse := by
    unfold extRsuf
    rw [hrest]
    exact List.takeWhile_eq_self_iff.mpr (fun a ha => by
      simp only [bne_iff_ne, ne_eq, decide_eq_true_eq]
      exact fun he => hw (he ▸ List.mem_reverse.mp ha))
  unfold extSplitBase
  rw [hrest, hrsuf, if_pos (by simp)]

theorem get_file_ext_no_dot {p : Str} (hb : '.' ∉ baseNameOf p) :
    get_file_ext p = [] := by
  show pyStrip ['.'] (extSplitBase (baseNameOf p)).2 = []
  rw [extSplitBase_no_dot hb]
  rfl

theorem get_file_ext_dotfile {p w : Str} (hb : baseNameOf p = '.' :: w)
    (hw : '.' ∉ w) : get_file_ext p = [] := by
  show pyStrip ['.'] (extSplitBase (baseNameOf p)).2 = []
  rw [hb, extSplitBase_dotfile hw]
  rfl

/-- Every selected path has an extension from the configured allow-lists,
provided the file names of the walk contain no separator. -/
theorem selectFiles_ext_allowed {walk : Fs}
    (hw : ∀ e ∈ walk, ∀ f ∈ e.2.2, pathSep ∉ f) :
    ∀ p ∈ selectFiles walk, get_file_ext p ∈ ALLOWED_EXTS := by
  intro p hp
  obtain ⟨e, he, f, hf, hsel⟩ := mem_selectFiles.mp hp
  have hsepf := hw e he f hf
  rcases mem_selectOne.mp hsel with ⟨h1, rfl⟩ | ⟨h1, m, hm, rfl, hex⟩ | ⟨h1, h2, rfl⟩
  · rw [get_file_ext_pjoin _ hsepf]
    have hl : get_file_ext f = ("lrc".toList) := by
      simpa [EXTS_LYRICS] using h1
    rw [hl]; decide
  · obtain ⟨hmd, hms, hmne⟩ := media_facts hm
    have hl : get_file_ext f = ("lrc".toList) := by
      simpa [EXTS_LYRICS] using h1
    obtain ⟨hge, hgs, hgsep, hstne⟩ := sibling_facts hsepf hl (by decide) hmd hms
    rw [get_file_ext_pjoin _ hgsep, hge]
    unfold ALLOWED_EXTS
    exact List.mem_append.mpr (Or.inl (List.mem_append.mpr (Or.inl hm)))
  · rw [get_file_ext_pjoin _ hsepf]
    have hj : get_file_ext f = ("jpg".toList) := by
      simpa [EXTS_ART] using h2
    rw [hj]; decide

theorem process_album_dir_ok_cases {albumPath minY maxY : Str} {walk : Fs}
    {sel : List Str} (h : process_album_dir albumPath minY maxY walk = .ok sel) :
    sel = selectFiles walk ∨ sel = [] := by
  unfold process_album_dir at h
  split at h
  · exact absurd h (by simp)
  · split at h
    · exact absurd h (by simp)
    · have hsel := Except.ok.inj h
      split at hsel
      · exact Or.inl hsel.symm
      · exact Or.inr hsel.symm

theorem collectAlbums_ok_mem (mediaPath minY maxY : Str) :
    ∀ (l : List (Str × FsTree)) (acc out : List Str),
      collectAlbums mediaPath minY maxY l acc = .ok out →
      ∀ p ∈ out, p ∈ acc ∨ ∃ fp sub, (fp, sub) ∈ l ∧
        ∃ sel, process_album_dir fp minY maxY (walkDown fp sub) = .ok sel ∧
          p ∈ sel := by
  intro l
  induction l with
  | nil =>
    intro acc out hok p hp
    unfold collectAlbums at hok
    obtain rfl := Except.ok.inj hok
    exact Or.inl hp
  | cons hd tl ih =>
    intro acc out hok p hp
    obtain ⟨hdp, hdt⟩ := hd
    unfold collectAlbums at hok
    split at hok
    · rename_i htest
      cases hpa : process_album_dir hdp minY maxY (walkDown hdp hdt) with
      | error e => rw [hpa] at hok; exact absurd hok (by simp)
      | ok sel =>
        rw [hpa] at hok
        rcases ih _ _ hok p hp with hin | ⟨fp, sub, hmem, sel', hpa', hp'⟩
        · rcases List.mem_append.mp hin with hin | hin
          · exact Or.inl hin
          · exact Or.inr ⟨hdp, hdt, by simp, sel, hpa, hin⟩
        · exact Or.inr ⟨fp, sub, by simp [hmem], sel', hpa', hp'⟩
    · rcases ih _ _ hok p hp with hin | ⟨fp, sub, hmem, sel', hpa', hp'⟩
      · exact Or.inl hin
      · exact Or.inr ⟨fp, sub, by simp [hmem], sel', hpa', hp'⟩

example :
    walkDown ("/m".toList)
      (.node (.fcons ("a".toList) (.node .fnil [("x.lrc".toList)]) .fnil) []) =
    [(("/m".toList), [("a".toList)], []),
     (("/m/a".toList), [], [("x.lrc".toList)])] := rfl

/-- Conclusion of claim C2 over the walk of an album folder that passed the
year filter; see c2_lyrics_sibling_selection. -/
def C2Prop (walk : Fs) : Prop :=
  (∀ e ∈ walk, ∀ f ∈ e.2.2, get_file_ext f ∈ EXTS_LYRICS →
    pjoin e.1 f ∈ selectFiles walk) ∧
  (∀ e ∈ walk, ∀ f ∈ e.2.2, get_file_ext f ∈ EXTS_LYRICS →
    ∀ m ∈ EXTS_MEDIA,
      (pjoin e.1 (stemOf f ++ '.' :: m) ∈ selectFiles walk ↔
        existsFs walk (pjoin e.1 (stemOf f ++ '.' :: m)) = true)) ∧
  (walkWf walk →
    ∀ e ∈ walk, ∀ g ∈ e.2.2, get_file_ext g ∈ EXTS_MEDIA →
    (∀ f ∈ e.2.2, get_file_ext f ∈ EXTS_LYRICS → stemOf f ≠ stemOf g) →
    pjoin e.1 g ∉ selectFiles walk)

/-- Claim C2: for an album folder passing the year filter, every lyrics file
of the subtree is selected; each same-directory same-stem media sibling of a
lyrics file is selected exactly when it exists; and a media file with no
same-directory same-stem lyrics file is never selected. -/
theorem c2_lyrics_sibling_selection (albumPath minY maxY : Str) (y : Nat)
    (walk : Fs) (h2 : 2 ≤ (pySplit pathSep albumPath).length)
    (hy : albumYearOf (lastSegOf albumPath) = some y)
    (hr : yearInRange minY maxY y = true) :
    process_album_dir albumPath minY maxY walk = .ok (selectFiles walk) ∧
      C2Prop walk := by
  constructor
  · rw [process_album_dir_ok albumPath minY maxY walk y h2 hy]
    simp [hr]
  · unfold C2Prop
    refine ⟨?_, ?_, ?_⟩
    · intro e he f hf h1
      exact mem_selectFiles.mpr
        ⟨e, he, f, hf, mem_selectOne.mpr (Or.inl ⟨h1, rfl⟩)⟩
    · intro e he f hf h1 m hm
      constructor
      · exact selectFiles_subset_exists
      · intro hex
        exact mem_selectFiles.mpr
          ⟨e, he, f, hf, mem_selectOne.mpr (Or.inr (Or.inl ⟨h1, m, hm, rfl, hex⟩))⟩
    · intro hwf e he g hg hgm hno hmem
      obtain ⟨hnd, hprops⟩ := hwf
      obtain ⟨e', he', f', hf', hsel⟩ := mem_selectFiles.mp hmem
      obtain ⟨hrne, hrl, hfile⟩ := hprops e he
      obtain ⟨hr'ne, hr'l, hfile'⟩ := hprops e' he'
      have hgsep : pathSep ∉ g := (hfile g hg).2
      have hf'sep : pathSep ∉ f' := (hfile' f' hf').2
      rcases mem_selectOne.mp hsel with ⟨h1, heq⟩ | ⟨h1, m, hm, heq, hex⟩ |
        ⟨h1, ha, heq⟩
      · obtain ⟨hre, hfe⟩ := pjoin_inj hrne hrl hgsep hr'ne hr'l hf'sep heq
        have hgl : get_file_ext g ∈ EXTS_LYRICS := by rw [hfe]; exact h1
        have hgl' : get_file_ext g = ("lrc".toList) := by
          simpa [EXTS_LYRICS] using hgl
        rw [hgl'] at hgm
        exact absurd hgm (by decide)
      · obtain ⟨hmd, hms, hmne⟩ := media_facts hm
        have hl' : get_file_ext f' = ("lrc".toList) := by
          simpa [EXTS_LYRICS] using h1
        obtain ⟨hge, hgs, hgsep', hstne⟩ :=
          sibling_facts hf'sep hl' (by decide) hmd hms
        obtain ⟨hre, hfe⟩ := pjoin_inj hrne hrl hgsep hr'ne hr'l hgsep' heq
        have hee : e = e' := List.inj_on_of_nodup_map hnd he he' hre
        have hsg : stemOf f' = stemOf g := by rw [hfe, hgs]
        exact hno f' (by rw [hee]; exact hf') h1 hsg
      · obtain ⟨hre, hfe⟩ := pjoin_inj hrne hrl hgsep hr'ne hr'l hf'sep heq
        have hga : get_file_ext g ∈ EXTS_ART := by rw [hfe]; exact ha
        have hga' : get_file_ext g = ("jpg".toList) := by
          simpa [EXTS_ART] using hga
        rw [hga'] at hgm
        exact absurd hgm (by decide)

/-- Witness for c2_lyrics_sibling_selection: one album directory holding a
lyrics file, its media sibling, an art file and an ignored file. -/
theorem c2_lyrics_sibling_selection_witness :
    ((2 ≤ (pySplit pathSep ("/m/a/Album [1983]".toList)).length) ∧
      albumYearOf (lastSegOf ("/m/a/Album [1983]".toList)) = some 1983 ∧
      yearInRange anyStr anyStr 1983 = true) ∧
    (process_album_dir ("/m/a/Album [1983]".toList) anyStr anyStr
        [(("/m/a/Album [1983]".toList), ([] : List Str),
          [("song.lrc".toList), ("song.mp3".toList), ("cover.jpg".toList),
           ("notes.txt".toList)])] =
      .ok (selectFiles
        [(("/m/a/Album [1983]".toList), ([] : List Str),
          [("song.lrc".toList), ("song.mp3".toList), ("cover.jpg".toList),
           ("notes.txt".toList)])]) ∧
      C2Prop
        [(("/m/a/Album [1983]".toList), ([] : List Str),
          [("song.lrc".toList), ("song.mp3".toList), ("cover.jpg".toList),
           ("notes.txt".toList)])]) :=
  ⟨⟨by decide, by decide, by decide⟩,
    c2_lyrics_sibling_selection _ _ _ 1983 _ (by decide) (by decide) (by decide)⟩

/-- Claim C7: for an album folder passing the year filter, every art file of
its subtree is selected, with no hypothesis about any lyrics file. -/
theorem c7_art_unconditional (albumPath minY maxY : Str) (y : Nat) (walk : Fs)
    (h2 : 2 ≤ (pySplit pathSep albumPath).length)
    (hy : albumYearOf (lastSegOf albumPath) = some y)
    (hr : yearInRange minY maxY y = true) :
    process_album_dir albumPath minY maxY walk = .ok (selectFiles walk) ∧
      ∀ e ∈ walk, ∀ f ∈ e.2.2, get_file_ext f ∈ EXTS_ART →
        pjoin e.1 f ∈ selectFiles walk := by
  constructor
  · rw [process_album_dir_ok albumPath minY maxY walk y h2 hy]
    simp [hr]
  · intro e he f hf ha
    have h1 : get_file_ext f ∉ EXTS_LYRICS := by
      have hj : get_file_ext f = ("jpg".toList) := by simpa [EXTS_ART] using ha
      rw [hj]; decide
    exact mem_selectFiles.mpr
      ⟨e, he, f, hf, mem_selectOne.mpr (Or.inr (Or.inr ⟨h1, ha, rfl⟩))⟩

/-- Witness for c7_art_unconditional: an album directory holding only an art
file and no lyrics file at all. -/
theorem c7_art_unconditional_witness :
    ((2 ≤ (pySplit pathSep ("/m/a/Album [1983]".toList)).length) ∧
      albumYearOf (lastSegOf ("/m/a/Album [1983]".toList)) = some 1983 ∧
      yearInRange anyStr anyStr 1983 = true) ∧
    (process_album_dir ("/m/a/Album [1983]".toList) anyStr anyStr
        [(("/m/a/Album [1983]".toList), ([] : List Str), [("cover.jpg".toList)])] =
      .ok (selectFiles
        [(("/m/a/Album [1983]".toList), ([] : List Str), [("cover.jpg".toList)])]) ∧
      ∀ e ∈ [(("/m/a/Album [1983]".toList), ([] : List Str), [("cover.jpg".toList)])],
        ∀ f ∈ e.2.2, get_file_ext f ∈ EXTS_ART →
          pjoin e.1 f ∈ selectFiles
            [(("/m/a/Album [1983]".toList), ([] : List Str), [("cover.jpg".toList)])]) :=
  ⟨⟨by decide, by decide, by decide⟩,
    c7_art_unconditional _ _ _ 1983 _ (by decide) (by decide) (by decide)⟩

/-- Claim C9: every path selected by a successful library walk has an
extension in the union of the configured allow-lists, given that the file
names of the walked tree contain no separator (as os.walk guarantees). -/
theorem c9_selection_ext_allowlist (mediaPath minY maxY : Str) (t : FsTree)
    (out : List Str)
    (hw : ∀ x ∈ checkedDirs mediaPath t, ∀ e ∈ walkDown x.1 x.2,
      ∀ f ∈ e.2.2, pathSep ∉ f)
    (hok : walk_media_dir mediaPath minY maxY t = .ok out) :
    ∀ p ∈ out, get_file_ext p ∈ ALLOWED_EXTS := by
  intro p hp
  unfold walk_media_dir at hok
  rcases collectAlbums_ok_mem mediaPath minY maxY _ [] out hok p hp with
    hin | ⟨fp, sub, hmem, sel, hpa, hpsel⟩
  · exact absurd hin (by simp)
  · rcases process_album_dir_ok_cases hpa with heq | heq
    · subst heq
      exact selectFiles_ext_allowed
        (fun e he f hf => hw (fp, sub) hmem e he f hf) p hpsel
    · subst heq
      exact absurd hpsel (by simp)

/-- Witness for c9_selection_ext_allowlist: a two-level tree with one album
holding a lyrics file and its media sibling; the walk succeeds and every
selected path carries an allowed extension. -/
theorem c9_selection_ext_allowlist_witness :
    (walk_media_dir ("/m".toList) anyStr anyStr
        (.node (.fcons ("Artist".toList)
          (.node (.fcons ("Album [1983]".toList)
            (.node .fnil [("song.lrc".toList), ("song.mp3".toList)]) .fnil) [])
          .fnil) []) =
      .ok [("/m/Artist/Album [1983]/song.lrc".toList),
           ("/m/Artist/Album [1983]/song.mp3".toList)]) ∧
    ∀ p ∈ [("/m/Artist/Album [1983]/song.lrc".toList),
           ("/m/Artist/Album [1983]/song.mp3".toList)],
      get_file_ext p ∈ ALLOWED_EXTS :=
  ⟨rfl, c9_selection_ext_allowlist ("/m".toList) anyStr anyStr
    (.node (.fcons ("Artist".toList)
      (.node (.fcons ("Album [1983]".toList)
        (.node .fnil [("song.lrc".toList), ("song.mp3".toList)]) .fnil) [])
      .fnil) [])
    [("/m/Artist/Album [1983]/song.lrc".toList),
     ("/m/Artist/Album [1983]/song.mp3".toList)]
    (by decide) rfl⟩

/-- Claim C10: a file name with no dot, and a dotfile consisting of a single
leading dot followed by dot-free characters (such as a file literally named
".lrc"), have empty extension, are classified as none of Media, Art or
Lyrics, and are never selected. -/
theorem c10_no_ext_never_selected (walk : Fs) (hwf : walkWf walk) :
    (∀ p : Str, '.' ∉ baseNameOf p → get_file_ext p = []) ∧
    (∀ p w : Str, baseNameOf p = '.' :: w → '.' ∉ w → get_file_ext p = []) ∧
    (([] : Str) ∉ EXTS_MEDIA ∧ ([] : Str) ∉ EXTS_ART ∧ ([] : Str) ∉ EXTS_LYRICS) ∧
    (∀ e ∈ walk, ∀ g ∈ e.2.2, get_file_ext g = [] →
      pjoin e.1 g ∉ selectFiles walk) := by
  refine ⟨fun p hb => get_file_ext_no_dot hb,
    fun p w hb hw => get_file_ext_dotfile hb hw,
    ⟨by decide, by decide, by decide⟩, ?_⟩
  intro e he g hg hge hmem
  obtain ⟨hnd, hprops⟩ := hwf
  obtain ⟨e', he', f', hf', hsel⟩ := mem_selectFiles.mp hmem
  obtain ⟨hrne, hrl, hfile⟩ := hprops e he
  obtain ⟨hr'ne, hr'l, hfile'⟩ := hprops e' he'
  have hgsep : pathSep ∉ g := (hfile g hg).2
  have hf'sep : pathSep ∉ f' := (hfile' f' hf').2
  rcases mem_selectOne.mp hsel with ⟨h1, heq⟩ | ⟨h1, m, hm, heq, hex⟩ |
    ⟨h1, ha, heq⟩
  · obtain ⟨hre, hfe⟩ := pjoin_inj hrne hrl hgsep hr'ne hr'l hf'sep heq
    have hgl : get_file_ext g ∈ EXTS_LYRICS := by rw [hfe]; exact h1
    rw [hge] at hgl
    exact absurd hgl (by decide)
  · obtain ⟨hmd, hms, hmne⟩ := media_facts hm
    have hl' : get_file_ext f' = ("lrc".toList) := by
      simpa [EXTS_LYRICS] using h1
    obtain ⟨hge', hgs, hgsep', hstne⟩ :=
      sibling_facts hf'sep hl' (by decide) hmd hms
    obtain ⟨hre, hfe⟩ := pjoin_inj hrne hrl hgsep hr'ne hr'l hgsep' heq
    have : get_file_ext g = m := by rw [hfe]; exact hge'
    rw [hge] at this
    exact hmne this.symm
  · obtain ⟨hre, hfe⟩ := pjoin_inj hrne hrl hgsep hr'ne hr'l hf'sep heq
    have hga : get_file_ext g ∈ EXTS_ART := by rw [hfe]; exact ha
    rw [hge] at hga
    exact absurd hga (by decide)

/-- Witness for c10_no_ext_never_selected: a directory holding a dotless
file and a file literally named ".lrc"; neither is ever selected. -/
theorem c10_no_ext_never_selected_witness :
    walkWf [(("/m/a/Album [1983]".toList), ([] : List Str),
      [("README".toList), (".lrc".toList)])] ∧
    (∀ e ∈ [(("/m/a/Album [1983]".toList), ([] : List Str),
        [("README".toList), (".lrc".toList)])],
      ∀ g ∈ e.2.2, get_file_ext g = [] →
        pjoin e.1 g ∉ selectFiles
          [(("/m/a/Album [1983]".toList), ([] : List Str),
            [("README".toList), (".lrc".toList)])]) :=
  ⟨by unfold walkWf; decide,
    (c10_no_ext_never_selected _ (by unfold walkWf; decide)).2.2.2⟩

/-! Depth lemmas for the walker's album test. -/

theorem contains_single_eq_true {a c : Char} (h : a = c) :
    ([c].contains a) = true := by
  subst h
  simp [List.contains]

theorem dropWhile_append_ne_nil {p : Char → Bool} {A : Str} (B : Str)
    (h : A.dropWhile p ≠ []) : (A ++ B).dropWhile p = A.dropWhile p ++ B := by
  induction A with
  | nil => exact absurd rfl h
  | cons c t ih =>
    by_cases hc : p c = true
    · rw [List.dropWhile_cons_of_pos hc] at h
      rw [List.cons_append, List.dropWhile_cons_of_pos hc,
        List.dropWhile_cons_of_pos hc, ih h]
    · rw [List.cons_append, List.dropWhile_cons_of_neg hc,
        List.dropWhile_cons_of_neg hc, List.cons_append]

theorem pySplit_ne_nil (sep : Char) (s : Str) : pySplit sep s ≠ [] := by
  cases s with
  | nil => simp [pySplit]
  | cons c rest =>
    unfold pySplit
    split
    · simp
    · split <;> simp

theorem pySplit_sepFree {sep : Char} {B : Str} (hB : sep ∉ B) :
    pySplit sep B = [B] := by
  induction B with
  | nil => rfl
  | cons b t ih =>
    have hb : ¬ b = sep := fun he => hB (by simp [he])
    unfold pySplit
    rw [if_neg hb, ih (fun hm => hB (by simp [hm]))]

theorem pySplit_append_sep {sep : Char} {B : Str} (hB : sep ∉ B) :
    ∀ A : Str, pySplit sep (A ++ sep :: B) = pySplit sep A ++ [B] := by
  intro A
  induction A with
  | nil =>
    rw [List.nil_append]
    show pySplit sep (sep :: B) = [[]] ++ [B]
    unfold pySplit
    rw [if_pos rfl, pySplit_sepFree hB]
    rfl
  | cons c A' ih =>
    by_cases hc : c = sep
    · subst hc
      rw [List.cons_append]
      show pySplit c (c :: (A' ++ c :: B)) = pySplit c (c :: A') ++ [B]
      unfold pySplit
      rw [if_pos rfl, if_pos rfl, ih, List.cons_append]
    · rw [List.cons_append]
      show pySplit sep (c :: (A' ++ sep :: B)) = pySplit sep (c :: A') ++ [B]
      unfold pySplit
      rw [if_neg hc, if_neg hc, ih]
      cases hps : pySplit sep A' with
      | nil => exact absurd hps (pySplit_ne_nil sep A')
      | cons s ss => simp

theorem pyStrip_sep_append {p n : Str} (hp : p ≠ [])
    (hl : p.getLast? ≠ some pathSep) (hn : n ≠ []) (hns : pathSep ∉ n) :
    pyStrip [pathSep] (p ++ pathSep :: n) = pyStrip [pathSep] p ++ pathSep :: n := by
  have hlast := List.getLast?_eq_getLast_of_ne_nil hp
  have hcne : p.getLast hp ≠ pathSep := fun he => hl (by rw [hlast, he])
  have hX : p.dropWhile (fun c => [pathSep].contains c) ≠ [] := by
    rw [Ne, List.dropWhile_eq_nil_iff]
    intro hall
    have h1 := hall (p.getLast hp) (List.getLast_mem hp)
    rw [contains_single_eq_false hcne] at h1
    exact absurd h1 (by simp)
  have hXlast : (p.dropWhile (fun c => [pathSep].contains c)).getLast? =
      p.getLast? := by
    conv_rhs => rw [← List.takeWhile_append_dropWhile
      (p := fun c => [pathSep].contains c) (l := p)]
    rw [List.getLast?_append_of_ne_nil _ hX]
  obtain ⟨X', hXdec⟩ := List.getLast?_eq_some_iff.mp (hXlast.trans hlast)
  have hXdw : (p.dropWhile (fun c => [pathSep].contains c)).reverse.dropWhile
      (fun c => [pathSep].contains c) =
      (p.dropWhile (fun c => [pathSep].contains c)).reverse := by
    rw [hXdec, List.reverse_append]
    simp only [List.reverse_singleton, List.singleton_append]
    exact List.dropWhile_cons_of_neg
      (by rw [contains_single_eq_false hcne]; simp)
  rcases hnr : n.reverse with _ | ⟨c2, t2⟩
  · exact absurd (by simpa using congrArg List.reverse hnr) hn
  · have hc2mem : c2 ∈ n := by
      rw [← List.mem_reverse, hnr]
      exact List.mem_cons_self c2 t2
    have hc2 : c2 ≠ pathSep := fun he => hns (he ▸ hc2mem)
    have hneq : n = t2.reverse ++ [c2] := by
      have h2 := congrArg List.reverse hnr
      simpa using h2
    unfold pyStrip
    rw [dropWhile_append_ne_nil _ hX]
    rw [show ((p.dropWhile (fun c => [pathSep].contains c)) ++
        pathSep :: n).reverse = c2 :: (t2 ++ pathSep ::
        (p.dropWhile (fun c => [pathSep].contains c)).reverse) from by
      rw [List.reverse_append]
      simp [hnr]]
    rw [List.dropWhile_cons_of_neg (by rw [contains_single_eq_false hc2]; simp)]
    rw [hXdw]
    rw [hneq]
    simp

theorem depth_pjoin {p n : Str} (hp : p ≠ [])
    (hl : p.getLast? ≠ some pathSep) (hn : n ≠ []) (hns : pathSep ∉ n) :
    get_path_depth (pjoin p n) = get_path_depth p + 1 ∧
    nonEmptySegCount (pjoin p n) = nonEmptySegCount p + 1 ∧
    pjoin p n ≠ [] ∧ (pjoin p n).getLast? ≠ some pathSep := by
  rw [pjoin_sep_shape hp hl hns]
  have hstrip := pyStrip_sep_append hp hl hn hns
  refine ⟨?_, ?_, by simp, ?_⟩
  · unfold get_path_depth
    rw [hstrip, pySplit_append_sep hns]
    simp
  · unfold nonEmptySegCount
    rw [hstrip, pySplit_append_sep hns, List.filter_append]
    simp [hn]
  · rw [List.getLast?_append_cons]
    cases n with
    | nil => exact absurd rfl hn
    | cons c t =>
      rw [List.getLast?_cons_cons]
      intro hcon
      obtain ⟨l', hdec⟩ := List.getLast?_eq_some_iff.mp hcon
      exact hns (by rw [hdec]; simp)

theorem joinChain_depth (names : List Str) :
    ∀ p : Str, p ≠ [] → p.getLast? ≠ some pathSep →
      (∀ n ∈ names, n ≠ [] ∧ pathSep ∉ n) →
      get_path_depth (joinChain p names) = get_path_depth p + names.length ∧
      nonEmptySegCount (joinChain p names) =
        nonEmptySegCount p + names.length := by
  induction names with
  | nil => intro p _ _ _; simp [joinChain]
  | cons n ns ih =>
    intro p hp hl hall
    obtain ⟨hn, hns⟩ := hall n (by simp)
    obtain ⟨hd, hnd, hne, hnl⟩ := depth_pjoin hp hl hn hns
    obtain ⟨hd', hnd'⟩ := ih (pjoin p n) hne hnl
      (fun m hm => hall m (by simp [hm]))
    refine ⟨?_, ?_⟩
    · show get_path_depth (joinChain (pjoin p n) ns) = _
      rw [hd', hd]
      simp only [List.length_cons]
      omega
    · show nonEmptySegCount (joinChain (pjoin p n) ns) = _
      rw [hnd', hnd]
      simp only [List.length_cons]
      omega

/-- Claim C6: every directory the walk encounters below the library root has
a path of the form joinChain mediaPath names for a non-empty chain of real
directory names; the walker's depth test (extracted at walk_media_dir lines
174-177) holds for it exactly when its count of non-empty path segments
exceeds the root's by exactly two, equivalently when the chain has length
two; chains of length one or three or more never pass, whatever the names. -/
theorem c6_album_depth_exactly_two (mediaPath : Str) (names : List Str)
    (h1 : mediaPath ≠ []) (h2 : mediaPath.getLast? ≠ some pathSep)
    (h3 : ∀ n ∈ names, n ≠ [] ∧ pathSep ∉ n) (_h4 : names ≠ []) :
    (albumDirTest mediaPath (joinChain mediaPath names) = true ↔
      nonEmptySegCount (joinChain mediaPath names) -
        nonEmptySegCount mediaPath = 2) ∧
    (albumDirTest mediaPath (joinChain mediaPath names) = true ↔
      names.length = 2) := by
  obtain ⟨hd, hnd⟩ := joinChain_depth names mediaPath h1 h2 h3
  unfold albumDirTest
  rw [hd, hnd]
  simp only [beq_iff_eq]
  constructor
  · constructor
    · intro h; omega
    · intro h; omega
  · constructor
    · intro h; omega
    · intro h; omega

/-- Witness for c6_album_depth_exactly_two: under root /music, the chain
Artist, Album [1983] has length two and passes the test; the iffs hold. -/
theorem c6_album_depth_exactly_two_witness :
    (("/music".toList) ≠ ([] : Str) ∧
      ("/music".toList).getLast? ≠ some pathSep ∧
      (∀ n ∈ [("Artist".toList), ("Album [1983]".toList)],
        n ≠ ([] : Str) ∧ pathSep ∉ n)) ∧
    ((albumDirTest ("/music".toList)
        (joinChain ("/music".toList)
          [("Artist".toList), ("Album [1983]".toList)]) = true ↔
      nonEmptySegCount (joinChain ("/music".toList)
          [("Artist".toList), ("Album [1983]".toList)]) -
        nonEmptySegCount ("/music".toList) = 2) ∧
     (albumDirTest ("/music".toList)
        (joinChain ("/music".toList)
          [("Artist".toList), ("Album [1983]".toList)]) = true ↔
      [("Artist".toList), ("Album [1983]".toList)].length = 2)) :=
  ⟨⟨by decide, by decide, by decide⟩,
    c6_album_depth_exactly_two ("/music".toList)
      [("Artist".toList), ("Album [1983]".toList)]
      (by decide) (by decide) (by decide) (by decide)⟩
